import Mathlib

/-!
Verification of the dataset-construction core of the basketball detection
pipeline.  Shallow embedding of the Python sources:

* `src/dataset_splitter.py` — `DatasetSplitter`
* `src/frame_extractor.py`  — `FrameExtractor`
* `src/quality_filter.py`   — `QualityFilter`
* `src/augmentation.py`     — `DataAugmentor`

Machine floating-point values are idealized as exact rationals (`ℚ`); Python
integers are `ℕ`/`ℤ`.  Every definition is translated directly from the
source file and line range named in its doc comment.
-/

namespace Pipeline

/-! ## Dataset splitter (`src/dataset_splitter.py`) -/

/-- One video folder together with its image count, as gathered by
`DatasetSplitter._gather_videos` (lines 48-65): the Python pair
`(video_folder_path, image_count)` with the path abstracted to a numeric
identifier. -/
structure Video where
  id : Nat
  count : Nat
deriving DecidableEq, Repr

/-- The loop state of `DatasetSplitter._assign_videos_to_splits`
(lines 75-76): the three partition lists `train`, `val`, `test` and the
running image counters `c_train`, `c_val`. -/
structure SplitState where
  train : List Video
  val : List Video
  test : List Video
  cTrain : Nat
  cVal : Nat
deriving DecidableEq, Repr

/-- One iteration of the assignment loop in
`DatasetSplitter._assign_videos_to_splits` (lines 78-86):

```python
if c_train + cnt <= target_train or not train:
    train.append((vid, cnt)); c_train += cnt
elif c_val + cnt <= target_val or not val:
    val.append((vid, cnt)); c_val += cnt
else:
    test.append((vid, cnt))
``` -/
def assignStep (targetTrain targetVal : ℚ) (s : SplitState) (v : Video) : SplitState :=
  if (s.cTrain : ℚ) + (v.count : ℚ) ≤ targetTrain ∨ s.train = [] then
    { s with train := s.train ++ [v], cTrain := s.cTrain + v.count }
  else if (s.cVal : ℚ) + (v.count : ℚ) ≤ targetVal ∨ s.val = [] then
    { s with val := s.val ++ [v], cVal := s.cVal + v.count }
  else
    { s with test := s.test ++ [v] }

/-- Embedding of `DatasetSplitter._assign_videos_to_splits` (lines 67-93) on the
already-shuffled video list.  The Python function first shuffles the list
in place with a fixed seed (line 69); the theorems below quantify over
every input order and therefore cover every possible shuffle outcome.
`target_train = train_ratio * total_images` and
`target_val = val_ratio * total_images` (lines 71-73). -/
def assignVideosToSplits (trainRatio valRatio : ℚ) (videos : List Video) : SplitState :=
  let totalImages : ℚ := ((videos.map Video.count).sum : ℕ)
  videos.foldl (assignStep (trainRatio * totalImages) (valRatio * totalImages))
    ⟨[], [], [], 0, 0⟩

/-- Total image count of a list of videos, as in
`sum(c for _, c in ...)` (`dataset_splitter.py`, line 71). -/
def sumCounts (l : List Video) : ℕ := (l.map Video.count).sum

/-- The largest single video's image count in a list (0 for the empty
list). -/
def maxCount (l : List Video) : ℕ := l.foldr (fun v m => max v.count m) 0

/-! ## Frame extractor (`src/frame_extractor.py`) -/

/-- The max-frames break test of `FrameExtractor.extract_frames_from_video`
(line 111): `if self.max_frames and saved_count >= self.max_frames: break`.
Python truthiness makes both `None` and `0` skip the break, so a configured
cap of `0` behaves like no cap at all. -/
def capHit : Option ℕ → ℕ → Bool
  | none, _ => false
  | some m, saved => !(m == 0) && (m ≤ saved)

/-- The frame-reading loop of `FrameExtractor.extract_frames_from_video`
(lines 103-140), returning the list of source frame indices that get saved.
`fuel` is the number of decodable frames still left in the stream (`cap.read`
succeeds exactly that many more times), `i` is `frame_count` and `saved` is
`saved_count`.  A frame is saved when `frame_count % frame_interval == 0`
(line 109) unless the max-frames break fires first (line 111). -/
def extractGo (interval : ℕ) (maxFrames : Option ℕ) : ℕ → ℕ → ℕ → List ℕ
  | 0, _, _ => []
  | fuel + 1, i, saved =>
    if i % interval = 0 then
      if capHit maxFrames saved then []
      else i :: extractGo interval maxFrames fuel (i + 1) (saved + 1)
    else extractGo interval maxFrames fuel (i + 1) saved

/-- Embedding of `FrameExtractor.extract_frames_from_video` on a video whose stream
yields `totalFrames` decodable frames, abstracted to the list of saved
source frame indices. -/
def extractFramesFromVideo (totalFrames interval : ℕ) (maxFrames : Option ℕ) : List ℕ :=
  extractGo interval maxFrames totalFrames 0 0

/-! ## Annotation-aware augmentation (`src/augmentation.py`) -/

/-- A YOLO bounding box `[class, x_center, y_center, width, height]`
(`augmentation.py`, line 89), the four geometric fields normalized to
[0,1] relative to the image dimensions. -/
structure BBox where
  cls : ℤ
  x : ℚ
  y : ℚ
  w : ℚ
  h : ℚ
deriving DecidableEq, Repr

/-- The geometric operation `DataAugmentor.zoom_image` performs on the image
pixels: either the identity copy (`zoomed = image.copy()`, line 186) or the
center crop to `new_h × new_w` at offset `(top, left)` followed by a resize
back to the full size (lines 151-156). -/
inductive ImgOp where
  | idOp : ImgOp
  | cropResize (top left newH newW : ℕ) : ImgOp
deriving DecidableEq, Repr

/-- Embedding of `DataAugmentor.horizontal_flip` (lines 83-103) restricted to the bbox
list: each box `[cls, x, y, w, h]` becomes `[cls, 1 - x, y, w, h]`. -/
def horizontalFlipBoxes (bboxes : List BBox) : List BBox :=
  bboxes.map (fun b => ⟨b.cls, 1 - b.x, b.y, b.w, b.h⟩)

/-- Embedding of `DataAugmentor.zoom_image` (lines 135-189) for an `h × w` image.
For `zoom_factor > 1`: `new_h = int(h / zoom_factor)`,
`new_w = int(w / zoom_factor)`, `top = (h - new_h) // 2`,
`left = (w - new_w) // 2` (all values are non-negative, so Python's
truncating `int` is the floor and `//` is ℕ division); each box center is
moved to pixel coordinates, shifted by the crop offset and scaled by
`zoom_factor`, and the box is kept only when
`0 <= new_x <= w and 0 <= new_y <= h` (line 176); width and height are
scaled by `zoom_factor` with no further check (lines 172-173).
For `zoom_factor ≤ 1` both image and boxes are returned unchanged
(lines 184-187). -/
def zoomImage (h w : ℕ) (zoomFactor : ℚ) (bboxes : List BBox) : ImgOp × List BBox :=
  if 1 < zoomFactor then
    let newH : ℕ := (⌊(h : ℚ) / zoomFactor⌋).toNat
    let newW : ℕ := (⌊(w : ℚ) / zoomFactor⌋).toNat
    let top : ℕ := (h - newH) / 2
    let left : ℕ := (w - newW) / 2
    (ImgOp.cropResize top left newH newW,
      bboxes.filterMap (fun b =>
        let xPix : ℚ := b.x * w
        let yPix : ℚ := b.y * h
        let newX : ℚ := (xPix - left) * zoomFactor
        let newY : ℚ := (yPix - top) * zoomFactor
        let newW2 : ℚ := (b.w * w) * zoomFactor
        let newH2 : ℚ := (b.h * h) * zoomFactor
        if 0 ≤ newX ∧ newX ≤ w ∧ 0 ≤ newY ∧ newY ≤ h then
          some ⟨b.cls, newX / w, newY / h, newW2 / w, newH2 / h⟩
        else none))
  else
    (ImgOp.idOp, bboxes)

/-! ## Quality filter (`src/quality_filter.py`) -/

/-- The threshold configuration read in `QualityFilter.__init__`
(lines 42-49). -/
structure FilterConfig where
  enabled : Bool
  minBrightness : ℚ
  maxBrightness : ℚ
  minSharpness : ℚ
  skipSimilar : Bool
  similarityThreshold : ℚ
  detectMotion : Bool
  minMotionScore : ℚ

/-- The image-level metric primitives of `QualityFilter`, abstracted over
the frame type `α`: `calculate_brightness` (lines 78-94),
`calculate_sharpness` (lines 96-117), `calculate_motion_score`
(lines 119-152, on two frames), `calculate_similarity` (lines 154-196) and
`_resize_for_metrics` (lines 62-76). -/
structure FrameMetrics (α : Type) where
  brightness : α → ℚ
  sharpness : α → ℚ
  motionScore : α → α → ℚ
  similarity : α → α → ℚ
  resizeForMetrics : α → α

/-- The mutable attributes of `QualityFilter` carried between candidate
frames: `previous_frame` and `previous_metric_frame` (lines 57-58, reset in
`filter_frames` lines 300-301) and the `_last_metric_frame` stash written
just before `is_quality_frame` returns `True` (line 257; the attribute does
not exist on a fresh object, modeled as `none`). -/
structure FilterState (α : Type) where
  previousFrame : Option α
  previousMetricFrame : Option α
  lastMetricFrame : Option α

/-- Embedding of `QualityFilter.is_quality_frame` (lines 198-258) as a pure predicate of
the candidate frame and the stored `previous_metric_frame`:
return `True` immediately when disabled (line 213); reject when brightness
falls outside `[min_brightness, max_brightness]` (line 225); reject when
sharpness is below `min_sharpness` (line 234); when a previous metric frame
exists, reject when motion is below `min_motion_score` (lines 239-245) and
then when similarity exceeds `similarity_threshold` (lines 248-254);
otherwise accept. -/
def isQualityFrame {α : Type} (cfg : FilterConfig) (m : FrameMetrics α)
    (prevMetric : Option α) (frame : α) : Bool :=
  if cfg.enabled = false then true
  else
    let mf := m.resizeForMetrics frame
    if m.brightness mf < cfg.minBrightness ∨ cfg.maxBrightness < m.brightness mf then
      false
    else if m.sharpness mf < cfg.minSharpness then false
    else
      match prevMetric with
      | none => true
      | some p =>
        if cfg.detectMotion = true ∧ m.motionScore mf p < cfg.minMotionScore then
          false
        else if cfg.skipSimilar = true ∧ cfg.similarityThreshold < m.similarity mf p then
          false
        else true

/-- One iteration of the loop body of `QualityFilter.filter_frames`
(lines 308-342) for a readable frame: call `is_quality_frame`; on accept,
set `previous_frame` to the candidate and `previous_metric_frame` to the
stashed `_last_metric_frame` when that stash is present (lines 333-336); on
reject, leave the state unchanged (no `else` branch touches it).  The stash
itself is written only on the accepting full-check path of
`is_quality_frame` (line 257), so it holds `resize_for_metrics` of the
accepted candidate whenever the filter is enabled. -/
def processFrame {α : Type} (cfg : FilterConfig) (m : FrameMetrics α)
    (st : FilterState α) (frame : α) : FilterState α × Bool :=
  let ok := isQualityFrame cfg m st.previousMetricFrame frame
  let stash : Option α :=
    if cfg.enabled = true ∧ ok = true then some (m.resizeForMetrics frame)
    else st.lastMetricFrame
  if ok then
    ({ previousFrame := some frame,
       previousMetricFrame :=
         match stash with
         | some x => some x
         | none => st.previousMetricFrame,
       lastMetricFrame := stash }, true)
  else ({ st with lastMetricFrame := stash }, false)

/-- The frame loop of `QualityFilter.filter_frames` (lines 308-342) over the
(readable) candidate frames in filename order, returning the list of
accepted frames and the final filter state. -/
def filterFramesGo {α : Type} (cfg : FilterConfig) (m : FrameMetrics α) :
    List α → FilterState α → List α × FilterState α
  | [], st => ([], st)
  | f :: rest, st =>
    let pr := processFrame cfg m st f
    let recres := filterFramesGo cfg m rest pr.1
    (if pr.2 then f :: recres.1 else recres.1, recres.2)

/-- Embedding of `QualityFilter.filter_frames` (lines 260-355): `previous_frame` and
`previous_metric_frame` are reset to `None` before the loop (lines 300-301);
`initialStash` is whatever `_last_metric_frame` holds from earlier calls
(`none` on a fresh object). -/
def filterFrames {α : Type} (cfg : FilterConfig) (m : FrameMetrics α)
    (frames : List α) (initialStash : Option α) : List α × FilterState α :=
  filterFramesGo cfg m frames ⟨none, none, initialStash⟩

/-! ## Label copying (`src/dataset_splitter.py`, `_copy_image_and_label`) -/

/-- The destination outcome of `DatasetSplitter._copy_image_and_label`
(lines 101-115) for one image: the image is always copied, and the
destination label is the source label's content when the source label file
exists, an empty file when it does not and `create_empty_labels` is set,
and absent otherwise. -/
structure CopyResult where
  imageCopied : Bool
  destLabel : Option String
deriving DecidableEq, Repr

/-- Embedding of `DatasetSplitter._copy_image_and_label` (lines 101-115), with the source
image abstracted to its optional label-file content. -/
def copyImageAndLabel (createEmptyLabels : Bool) (srcLabel : Option String) :
    CopyResult :=
  { imageCopied := true
    destLabel :=
      match srcLabel with
      | some content => some content
      | none => if createEmptyLabels then some "" else none }

/-- Embedding of `DatasetSplitter._copy_video_folder` (lines 117-123): every image of the
video folder goes through `_copy_image_and_label`. -/
def copyVideoFolder (createEmptyLabels : Bool) (imgs : List (Option String)) :
    List CopyResult :=
  imgs.map (copyImageAndLabel createEmptyLabels)

/-- The `create_empty_labels` configuration default of
`DatasetSplitter.__init__` (line 39):
`bool(self.split_cfg.get("create_empty_labels", True))`. -/
def createEmptyLabelsConfig (configured : Option Bool) : Bool :=
  configured.getD true

lemma assignStep_train_cases (tt tv : ℚ) (s : SplitState) (v : Video) :
    (assignStep tt tv s v).train = s.train ++ [v] ∨
      (assignStep tt tv s v).train = s.train := by
  unfold assignStep
  split_ifs <;> simp

lemma assignFoldl_perm (tt tv : ℚ) :
    ∀ (vs : List Video) (s : SplitState),
      ((((vs.foldl (assignStep tt tv) s).train ++
          (vs.foldl (assignStep tt tv) s).val) ++
          (vs.foldl (assignStep tt tv) s).test) : List Video).Perm
        (((s.train ++ s.val) ++ s.test) ++ vs) := by
  intro vs
  induction vs with
  | nil => intro s; simp
  | cons v rest ih =>
    intro s
    have step : ((((assignStep tt tv s v).train ++ (assignStep tt tv s v).val) ++
        (assignStep tt tv s v).test) : List Video).Perm
        (((s.train ++ s.val) ++ s.test) ++ [v]) := by
      unfold assignStep
      split_ifs <;>
        · dsimp only
          rw [← Multiset.coe_eq_coe]
          simp only [← Multiset.coe_add]
          abel
    have heq : (((s.train ++ s.val) ++ s.test) ++ [v]) ++ rest
        = ((s.train ++ s.val) ++ s.test) ++ (v :: rest) := by simp
    exact ((ih (assignStep tt tv s v)).trans (step.append_right rest)).trans
      (heq ▸ List.Perm.refl _)

lemma assignFoldl_extends (tt tv : ℚ) :
    ∀ (vs : List Video) (s : SplitState),
      (∃ t, (vs.foldl (assignStep tt tv) s).train = s.train ++ t) ∧
      (∃ u, (vs.foldl (assignStep tt tv) s).val = s.val ++ u) ∧
      (∃ w, (vs.foldl (assignStep tt tv) s).test = s.test ++ w) ∧
      s.cTrain ≤ (vs.foldl (assignStep tt tv) s).cTrain := by
  intro vs
  induction vs with
  | nil => intro s; exact ⟨⟨[], by simp⟩, ⟨[], by simp⟩, ⟨[], by simp⟩, le_rfl⟩
  | cons v rest ih =>
    intro s
    obtain ⟨⟨t, ht⟩, ⟨u, hu⟩, ⟨w, hw⟩, hc⟩ := ih (assignStep tt tv s v)
    simp only [List.foldl_cons]
    unfold assignStep at ht hu hw hc ⊢
    split_ifs at ht hu hw hc ⊢ <;> dsimp only at ht hu hw hc ⊢
    · exact ⟨⟨v :: t, by simp [ht]⟩, ⟨u, hu⟩, ⟨w, hw⟩, by omega⟩
    · exact ⟨⟨t, ht⟩, ⟨v :: u, by simp [hu]⟩, ⟨w, hw⟩, hc⟩
    · exact ⟨⟨t, ht⟩, ⟨u, hu⟩, ⟨v :: w, by simp [hw]⟩, hc⟩

lemma assignFoldl_val_ne_nil (tt tv : ℚ) (vs : List Video) (s : SplitState)
    (h : s.val ≠ []) : (vs.foldl (assignStep tt tv) s).val ≠ [] := by
  obtain ⟨_, ⟨u, hu⟩, _, _⟩ := assignFoldl_extends tt tv vs s
  rw [hu]
  intro hno
  exact h (List.append_eq_nil.mp hno).1

lemma assignFoldl_train_ne_nil (tt tv : ℚ) (vs : List Video) (s : SplitState)
    (h : s.train ≠ []) : (vs.foldl (assignStep tt tv) s).train ≠ [] := by
  obtain ⟨⟨t, ht⟩, _, _, _⟩ := assignFoldl_extends tt tv vs s
  rw [ht]
  intro hno
  exact h (List.append_eq_nil.mp hno).1

/-- If the final `val` list is empty then every processed video was appended
to `train` (the `elif` branch would have made `val` nonempty, and the `else`
branch is reachable only when `val` is already nonempty). -/
lemma assignFoldl_val_nil (tt tv : ℚ) :
    ∀ (vs : List Video) (s : SplitState),
      (vs.foldl (assignStep tt tv) s).val = [] →
      (vs.foldl (assignStep tt tv) s).train = s.train ++ vs ∧
      (vs.foldl (assignStep tt tv) s).cTrain = s.cTrain + sumCounts vs := by
  intro vs
  induction vs with
  | nil => intro s _; simp [sumCounts]
  | cons v rest ih =>
    intro s hval
    simp only [List.foldl_cons] at hval ⊢
    by_cases htr : (s.cTrain : ℚ) + (v.count : ℚ) ≤ tt ∨ s.train = []
    · have hstep : assignStep tt tv s v =
          { s with train := s.train ++ [v], cTrain := s.cTrain + v.count } := by
        unfold assignStep
        rw [if_pos htr]
      rw [hstep] at hval ⊢
      obtain ⟨h1, h2⟩ := ih _ hval
      dsimp only at h1 h2
      constructor
      · rw [h1]; simp
      · rw [h2, sumCounts, sumCounts]; simp; omega
    · by_cases hvl : (s.cVal : ℚ) + (v.count : ℚ) ≤ tv ∨ s.val = []
      · have hstep : assignStep tt tv s v =
            { s with val := s.val ++ [v], cVal := s.cVal + v.count } := by
          unfold assignStep
          rw [if_neg htr, if_pos hvl]
        rw [hstep] at hval
        exact absurd hval
          (assignFoldl_val_ne_nil tt tv rest _ (by simp))
      · have hstep : assignStep tt tv s v = { s with test := s.test ++ [v] } := by
          unfold assignStep
          rw [if_neg htr, if_neg hvl]
        have hvne : s.val ≠ [] := fun hnil => hvl (Or.inr hnil)
        rw [hstep] at hval
        exact absurd hval (assignFoldl_val_ne_nil tt tv rest _ hvne)

/-- If `val` ends empty, `train` was already nonempty, and at least one video
was processed, then the final train counter respects the train target (the
last appended video passed the `c_train + cnt <= target_train` test). -/
lemma assignFoldl_val_nil_le (tt tv : ℚ) :
    ∀ (vs : List Video) (s : SplitState), vs ≠ [] → s.train ≠ [] →
      (vs.foldl (assignStep tt tv) s).val = [] →
      ((vs.foldl (assignStep tt tv) s).cTrain : ℚ) ≤ tt := by
  intro vs
  induction vs with
  | nil => intro s h; exact absurd rfl h
  | cons v rest ih =>
    intro s _ htr hval
    simp only [List.foldl_cons] at hval ⊢
    by_cases hcond : (s.cTrain : ℚ) + (v.count : ℚ) ≤ tt ∨ s.train = []
    · have hle : (s.cTrain : ℚ) + (v.count : ℚ) ≤ tt := hcond.resolve_right htr
      have hstep : assignStep tt tv s v =
          { s with train := s.train ++ [v], cTrain := s.cTrain + v.count } := by
        unfold assignStep
        rw [if_pos hcond]
      rcases List.eq_nil_or_concat rest with hrest | ⟨_, _, hrest⟩
      · subst hrest
        simp only [List.foldl_nil] at hval ⊢
        rw [hstep]
        dsimp only
        push_cast
        exact hle
      · have hrne : rest ≠ [] := by subst hrest; simp
        refine ih (assignStep tt tv s v) hrne ?_ hval
        rw [hstep]
        simp
    · by_cases hvl : (s.cVal : ℚ) + (v.count : ℚ) ≤ tv ∨ s.val = []
      · have hstep : assignStep tt tv s v =
            { s with val := s.val ++ [v], cVal := s.cVal + v.count } := by
          unfold assignStep
          rw [if_neg hcond, if_pos hvl]
        rw [hstep] at hval
        exact absurd hval (assignFoldl_val_ne_nil tt tv rest _ (by simp))
      · have hvne : s.val ≠ [] := fun hnil => hvl (Or.inr hnil)
        rw [show assignStep tt tv s v = { s with test := s.test ++ [v] } from by
          unfold assignStep; rw [if_neg hcond, if_neg hvl]] at hval
        exact absurd hval (assignFoldl_val_ne_nil tt tv rest _ hvne)

/-- Upper bound: the train counter never exceeds `max target B` where `B`
bounds every single video's count (the only way past the target is the
`or not train` fallback on the very first assigned video). -/
lemma assignFoldl_cTrain_upper (tt tv B : ℚ) :
    ∀ (vs : List Video) (s : SplitState),
      (s.train = [] → s.cTrain = 0) →
      ((s.cTrain : ℚ) ≤ max tt B) →
      (∀ v ∈ vs, (v.count : ℚ) ≤ B) →
      ((vs.foldl (assignStep tt tv) s).cTrain : ℚ) ≤ max tt B := by
  intro vs
  induction vs with
  | nil => intro s _ hle _; simpa using hle
  | cons v rest ih =>
    intro s hemp hle hB
    simp only [List.foldl_cons]
    have hBv : (v.count : ℚ) ≤ B := hB v (by simp)
    have hBrest : ∀ u ∈ rest, (u.count : ℚ) ≤ B := fun u hu => hB u (by simp [hu])
    by_cases hcond : (s.cTrain : ℚ) + (v.count : ℚ) ≤ tt ∨ s.train = []
    · have hstep : assignStep tt tv s v =
          { s with train := s.train ++ [v], cTrain := s.cTrain + v.count } := by
        unfold assignStep
        rw [if_pos hcond]
      rw [hstep]
      refine ih _ (by simp) ?_ hBrest
      dsimp only
      push_cast
      rcases hcond with h | h
      · exact le_trans h (le_max_left tt B)
      · rw [hemp h]
        simpa using le_trans hBv (le_max_right tt B)
    · by_cases hvl : (s.cVal : ℚ) + (v.count : ℚ) ≤ tv ∨ s.val = []
      · have hstep : assignStep tt tv s v =
            { s with val := s.val ++ [v], cVal := s.cVal + v.count } := by
          unfold assignStep
          rw [if_neg hcond, if_pos hvl]
        rw [hstep]
        refine ih _ ?_ hle hBrest
        intro h
        exact hemp h
      · have hstep : assignStep tt tv s v = { s with test := s.test ++ [v] } := by
          unfold assignStep
          rw [if_neg hcond, if_neg hvl]
        rw [hstep]
        refine ih _ ?_ hle hBrest
        intro h
        exact hemp h

/-- Lower bound: the train counter ends within `B` below the target,
provided the total image supply can reach the target at all.  Any video
rejected from `train` witnesses `target - c_train < its count ≤ B`. -/
lemma assignFoldl_cTrain_lower (tt tv B : ℚ) :
    ∀ (vs : List Video) (s : SplitState),
      (∀ v ∈ vs, (v.count : ℚ) ≤ B) → 0 ≤ B →
      tt ≤ (s.cTrain : ℚ) + (sumCounts vs : ℚ) →
      tt - ((vs.foldl (assignStep tt tv) s).cTrain : ℚ) ≤ B := by
  intro vs
  induction vs with
  | nil =>
    intro s _ hB htt
    simp only [List.foldl_nil]
    simp [sumCounts] at htt
    linarith
  | cons v rest ih =>
    intro s hBv hB htt
    simp only [List.foldl_cons]
    have hBrest : ∀ u ∈ rest, (u.count : ℚ) ≤ B := fun u hu => hBv u (by simp [hu])
    by_cases hcond : (s.cTrain : ℚ) + (v.count : ℚ) ≤ tt ∨ s.train = []
    · have hstep : assignStep tt tv s v =
          { s with train := s.train ++ [v], cTrain := s.cTrain + v.count } := by
        unfold assignStep
        rw [if_pos hcond]
      rw [hstep]
      refine ih _ hBrest hB ?_
      dsimp only
      have : (sumCounts (v :: rest) : ℚ) = (v.count : ℚ) + (sumCounts rest : ℚ) := by
        rw [sumCounts, sumCounts, List.map_cons, List.sum_cons]
        push_cast
        ring
      push_cast
      rw [this] at htt
      linarith
    · push_neg at hcond
      have hlt : tt < (s.cTrain : ℚ) + (v.count : ℚ) := hcond.1
      have hmono : s.cTrain ≤ ((rest.foldl (assignStep tt tv)
          (assignStep tt tv s v)).cTrain) := by
        have h1 : s.cTrain ≤ (assignStep tt tv s v).cTrain := by
          unfold assignStep
          split_ifs <;> dsimp only <;> omega
        exact le_trans h1 (assignFoldl_extends tt tv rest _).2.2.2
      have hcnt : (v.count : ℚ) ≤ B := hBv v (by simp)
      have : (s.cTrain : ℚ) ≤ ((rest.foldl (assignStep tt tv)
          (assignStep tt tv s v)).cTrain : ℚ) := by exact_mod_cast hmono
      linarith

/-- The train counter tracks the total image count of the train list
(`c_train += cnt` exactly when `(vid, cnt)` is appended to `train`). -/
lemma assignFoldl_cTrain_eq (tt tv : ℚ) :
    ∀ (vs : List Video) (s : SplitState),
      s.cTrain = sumCounts s.train →
      (vs.foldl (assignStep tt tv) s).cTrain =
        sumCounts (vs.foldl (assignStep tt tv) s).train := by
  intro vs
  induction vs with
  | nil => intro s h; simpa using h
  | cons v rest ih =>
    intro s h
    simp only [List.foldl_cons]
    refine ih _ ?_
    unfold assignStep
    split_ifs <;> dsimp only <;> simp [sumCounts] at h ⊢ <;> omega

lemma count_le_maxCount : ∀ (l : List Video), ∀ v ∈ l, v.count ≤ maxCount l := by
  intro l
  induction l with
  | nil => intro v hv; exact absurd hv (by simp)
  | cons u rest ih =>
    intro v hv
    rcases List.mem_cons.mp hv with h | h
    · subst h
      simp [maxCount]
    · have := ih v h
      simp only [maxCount, List.foldr_cons] at this ⊢
      omega

/-- C1: the partitioner assigns every VideoGroup to exactly one of
{train, val, test}: the concatenation of the three partitions is a
permutation of the input collection (no group dropped or duplicated), and —
when the VideoGroup identifiers are pairwise distinct — the identifier sets
of any two distinct partitions have empty intersection. -/
theorem c1_partition_exactly_one (rT rV : ℚ) (videos : List Video)
    (hnd : (videos.map Video.id).Nodup) :
    ((((assignVideosToSplits rT rV videos).train ++
        (assignVideosToSplits rT rV videos).val) ++
        (assignVideosToSplits rT rV videos).test).Perm videos) ∧
    ((assignVideosToSplits rT rV videos).train.map Video.id ∩
      (assignVideosToSplits rT rV videos).val.map Video.id = []) ∧
    ((assignVideosToSplits rT rV videos).train.map Video.id ∩
      (assignVideosToSplits rT rV videos).test.map Video.id = []) ∧
    ((assignVideosToSplits rT rV videos).val.map Video.id ∩
      (assignVideosToSplits rT rV videos).test.map Video.id = []) := by
  have hperm0 := assignFoldl_perm
    (rT * ((videos.map Video.count).sum : ℕ)) (rV * ((videos.map Video.count).sum : ℕ))
    videos ⟨[], [], [], 0, 0⟩
  have hunf : assignVideosToSplits rT rV videos =
      videos.foldl (assignStep (rT * ((videos.map Video.count).sum : ℕ))
        (rV * ((videos.map Video.count).sum : ℕ))) ⟨[], [], [], 0, 0⟩ := rfl
  rw [hunf]
  simp only [List.nil_append] at hperm0
  refine ⟨hperm0, ?_⟩
  have hmap := hperm0.map Video.id
  have hnodup := hmap.symm.nodup hnd
  rw [List.map_append, List.map_append] at hnodup
  rw [List.nodup_append, List.nodup_append] at hnodup
  obtain ⟨⟨_, _, h12⟩, _, h3⟩ := hnodup
  rw [List.disjoint_append_left] at h3
  exact ⟨List.inter_eq_nil_iff_disjoint.mpr h12,
    List.inter_eq_nil_iff_disjoint.mpr h3.1,
    List.inter_eq_nil_iff_disjoint.mpr h3.2⟩

/-- Witness for C1 at a concrete input: two videos with distinct identifiers
and counts 2 and 1, ratios (0.8, 0.1). -/
theorem c1_partition_exactly_one_witness :
    ((((assignVideosToSplits (4/5) (1/10) [⟨0, 2⟩, ⟨1, 1⟩]).train ++
        (assignVideosToSplits (4/5) (1/10) [⟨0, 2⟩, ⟨1, 1⟩]).val) ++
        (assignVideosToSplits (4/5) (1/10) [⟨0, 2⟩, ⟨1, 1⟩]).test).Perm
        [⟨0, 2⟩, ⟨1, 1⟩]) ∧
    ((assignVideosToSplits (4/5) (1/10) [⟨0, 2⟩, ⟨1, 1⟩]).train.map Video.id ∩
      (assignVideosToSplits (4/5) (1/10) [⟨0, 2⟩, ⟨1, 1⟩]).val.map Video.id = []) ∧
    ((assignVideosToSplits (4/5) (1/10) [⟨0, 2⟩, ⟨1, 1⟩]).train.map Video.id ∩
      (assignVideosToSplits (4/5) (1/10) [⟨0, 2⟩, ⟨1, 1⟩]).test.map Video.id = []) ∧
    ((assignVideosToSplits (4/5) (1/10) [⟨0, 2⟩, ⟨1, 1⟩]).val.map Video.id ∩
      (assignVideosToSplits (4/5) (1/10) [⟨0, 2⟩, ⟨1, 1⟩]).test.map Video.id = []) :=
  c1_partition_exactly_one (4/5) (1/10) [⟨0, 2⟩, ⟨1, 1⟩] (by simp)

/-- Counterexample to C2 as stated: with ratios (0.8, 0.1, 0.1) — all
nonzero — and the non-empty collection of three one-image videos, the greedy
assignment leaves the `test` partition empty (the code has an emptiness
fallback for `train` and `val` but none for `test`).  With a single video,
`val` is empty as well. -/
theorem c2_counterexample :
    (1/10 : ℚ) ≠ 0 ∧
    ([⟨0, 1⟩, ⟨1, 1⟩, ⟨2, 1⟩] : List Video) ≠ [] ∧
    (assignVideosToSplits (4/5) (1/10) [⟨0, 1⟩, ⟨1, 1⟩, ⟨2, 1⟩]).test = [] ∧
    (assignVideosToSplits (4/5) (1/10) [⟨0, 1⟩]).val = [] ∧
    (assignVideosToSplits (4/5) (1/10) [⟨0, 1⟩]).test = [] := by
  refine ⟨by norm_num, by simp, ?_, ?_, ?_⟩ <;>
    · norm_num [assignVideosToSplits, assignStep]
      try simp

/-- C2 as amended: for every non-empty collection the `train` partition
receives at least one VideoGroup; the `val` partition receives at least one
provided there are at least two VideoGroups and the train target
`train_ratio × total_images` is strictly below the total image count.  The
`test` partition has no such guarantee. -/
theorem c2_amended_nonempty_partitions (rT rV : ℚ) (videos : List Video)
    (hne : videos ≠ []) :
    (assignVideosToSplits rT rV videos).train ≠ [] ∧
    (2 ≤ videos.length →
      rT * (sumCounts videos : ℚ) < (sumCounts videos : ℚ) →
      (assignVideosToSplits rT rV videos).val ≠ []) := by
  obtain ⟨v, rest, rfl⟩ := List.exists_cons_of_ne_nil hne
  set tt : ℚ := rT * ((((v :: rest).map Video.count).sum : ℕ) : ℚ) with htt
  set tv : ℚ := rV * ((((v :: rest).map Video.count).sum : ℕ) : ℚ) with htv
  have hunf : assignVideosToSplits rT rV (v :: rest) =
      (v :: rest).foldl (assignStep tt tv) ⟨[], [], [], 0, 0⟩ := rfl
  have hstep1 : assignStep tt tv ⟨[], [], [], 0, 0⟩ v =
      { train := [v], val := [], test := [], cTrain := v.count, cVal := 0 } := by
    unfold assignStep
    rw [if_pos (Or.inr rfl)]
    simp
  constructor
  · rw [hunf]
    simp only [List.foldl_cons, hstep1]
    exact assignFoldl_train_ne_nil tt tv rest _ (by simp)
  · intro hlen hlt hval
    have hrne : rest ≠ [] := by
      intro h
      rw [h] at hlen
      simp at hlen
    rw [hunf] at hval
    have hall := assignFoldl_val_nil tt tv (v :: rest) ⟨[], [], [], 0, 0⟩ hval
    have hle : (((v :: rest).foldl (assignStep tt tv)
        ⟨[], [], [], 0, 0⟩).cTrain : ℚ) ≤ tt := by
      simp only [List.foldl_cons, hstep1] at hval ⊢
      exact assignFoldl_val_nil_le tt tv rest _ hrne (by simp) hval
    rw [hall.2] at hle
    simp only [Nat.zero_add] at hle
    rw [htt] at hle
    have : (sumCounts (v :: rest) : ℚ) =
        ((((v :: rest).map Video.count).sum : ℕ) : ℚ) := rfl
    rw [← this] at hle
    exact absurd (lt_of_le_of_lt hle hlt) (lt_irrefl _)

/-- Witness for C2 as amended: two videos of counts 2 and 1 with ratios
(0.8, 0.1) put at least one video in `train` and one in `val`. -/
theorem c2_amended_nonempty_partitions_witness :
    (assignVideosToSplits (4/5) (1/10) [⟨0, 2⟩, ⟨1, 1⟩]).train ≠ [] ∧
    (assignVideosToSplits (4/5) (1/10) [⟨0, 2⟩, ⟨1, 1⟩]).val ≠ [] :=
  ⟨(c2_amended_nonempty_partitions (4/5) (1/10) [⟨0, 2⟩, ⟨1, 1⟩] (by simp)).1,
    (c2_amended_nonempty_partitions (4/5) (1/10) [⟨0, 2⟩, ⟨1, 1⟩] (by simp)).2
      (by simp) (by norm_num [sumCounts])⟩

/-- C8: with ratios (0.8, 0.1, 0.1), the realized train image count differs
from `train_ratio × total_images` by at most the image count of the largest
single VideoGroup. -/
theorem c8_ratio_approximation (videos : List Video) :
    |(sumCounts (assignVideosToSplits (4/5) (1/10) videos).train : ℚ) -
      4/5 * (sumCounts videos : ℚ)| ≤ (maxCount videos : ℚ) := by
  set T : ℚ := ((((videos.map Video.count).sum : ℕ)) : ℚ) with hT
  set tt : ℚ := (4/5 : ℚ) * T with htt
  set tv : ℚ := (1/10 : ℚ) * T with htv
  set B : ℚ := (maxCount videos : ℚ) with hB
  have hunf : assignVideosToSplits (4/5) (1/10) videos =
      videos.foldl (assignStep tt tv) ⟨[], [], [], 0, 0⟩ := rfl
  have hTnn : 0 ≤ T := by rw [hT]; positivity
  have hBnn : 0 ≤ B := by rw [hB]; positivity
  have httnn : 0 ≤ tt := by rw [htt]; positivity
  have hcnt : ∀ v ∈ videos, (v.count : ℚ) ≤ B := by
    intro v hv
    rw [hB]
    exact_mod_cast count_le_maxCount videos v hv
  have hup := assignFoldl_cTrain_upper tt tv B videos ⟨[], [], [], 0, 0⟩
    (fun _ => rfl) (by simpa using le_trans httnn (le_max_left tt B)) hcnt
  have hlo := assignFoldl_cTrain_lower tt tv B videos ⟨[], [], [], 0, 0⟩
    hcnt hBnn (by
      have hsum : (sumCounts videos : ℚ) = T := rfl
      simp only [Nat.cast_zero, zero_add, hsum]
      rw [htt]
      linarith)
  have heq := assignFoldl_cTrain_eq tt tv videos ⟨[], [], [], 0, 0⟩ rfl
  rw [hunf, ← heq]
  rw [abs_le]
  have hsum : (sumCounts videos : ℚ) = T := rfl
  rw [hsum]
  constructor
  · rw [htt] at hlo ⊢
    linarith
  · rcases le_total tt B with h | h
    · rw [max_eq_right h] at hup
      rw [htt] at hup ⊢
      linarith
    · rw [max_eq_left h] at hup
      rw [htt] at hup ⊢
      linarith

/-! ### Frame extractor lemmas -/

lemma extractGo_none_eq_filter (N : ℕ) :
    ∀ (fuel i saved : ℕ),
      extractGo N none fuel i saved =
        ((List.range fuel).map (i + ·)).filter (fun j => j % N == 0) := by
  intro fuel
  induction fuel with
  | zero => intro i saved; simp [extractGo]
  | succ fuel ih =>
    intro i saved
    rw [List.range_succ_eq_map]
    simp only [List.map_cons, List.map_map]
    have hcomp : ((i + ·) ∘ Nat.succ) = ((i + 1) + ·) := by
      funext j
      simp [Function.comp]
      omega
    rw [hcomp, List.filter_cons]
    by_cases h : i % N = 0
    · simp only [extractGo, if_pos h, capHit]
      simp [h, ih (i + 1)]
    · simp only [extractGo, if_neg h]
      simp [h, ih (i + 1)]

lemma extractGo_some_eq_take (N M : ℕ) (hM : 1 ≤ M) :
    ∀ (fuel i saved : ℕ),
      extractGo N (some M) fuel i saved =
        (extractGo N none fuel i saved).take (M - saved) := by
  intro fuel
  induction fuel with
  | zero => intro i saved; simp [extractGo]
  | succ fuel ih =>
    intro i saved
    by_cases h : i % N = 0
    · simp only [extractGo, if_pos h, capHit]
      by_cases hs : M ≤ saved
      · have hz : M - saved = 0 := Nat.sub_eq_zero_of_le hs
        have : (!(M == 0) && decide (M ≤ saved)) = true := by
          simp [hs]
          omega
        simp only [this, hz]
        simp
      · have : (!(M == 0) && decide (M ≤ saved)) = false := by simp [hs]
        simp only [this, Bool.false_eq_true, if_false]
        have hms : M - saved = (M - (saved + 1)) + 1 := by omega
        rw [hms, ih (i + 1) (saved + 1), List.take_succ_cons]
    · simp only [extractGo, if_neg h]
      exact ih (i + 1) saved

lemma range_filter_mod (N : ℕ) (hN : 1 ≤ N) :
    ∀ (F : ℕ),
      (List.range F).filter (fun j => j % N == 0) =
        (List.range ((F + N - 1) / N)).map (· * N) := by
  intro F
  induction F with
  | zero =>
    have : (N - 1) / N = 0 := Nat.div_eq_of_lt (by omega)
    simp [this]
  | succ F ih =>
    rw [List.range_succ, List.filter_append, ih]
    by_cases hmod : F % N = 0
    · have hdvd : N ∣ F := Nat.dvd_of_mod_eq_zero hmod
      have hmul : F / N * N = F := Nat.div_mul_cancel hdvd
      have h1 : (F + N - 1) / N = F / N := by
        rw [show F + N - 1 = (N - 1) + F / N * N from by rw [hmul]; omega,
          Nat.add_mul_div_right _ _ (by omega : 0 < N),
          Nat.div_eq_of_lt (by omega : N - 1 < N)]
        omega
      have h2 : (F + 1 + N - 1) / N = F / N + 1 := by
        rw [show F + 1 + N - 1 = (F / N + 1) * N from by
          rw [Nat.add_mul, one_mul, hmul]; omega,
          Nat.mul_div_cancel _ (by omega : 0 < N)]
      rw [h1, h2, List.range_succ, List.map_append]
      simp [hmod, hmul]
    · have hd := Nat.div_add_mod F N
      have hr1 : 1 ≤ F % N := Nat.one_le_iff_ne_zero.mpr hmod
      have hrN : F % N < N := Nat.mod_lt _ (by omega)
      have hexp : (F / N + 1) * N = N * (F / N) + N := by ring
      have h1 : (F + N - 1) / N = F / N + 1 := by
        rw [show F + N - 1 = (F % N - 1) + (F / N + 1) * N from by
          rw [hexp]; omega,
          Nat.add_mul_div_right _ _ (by omega : 0 < N),
          Nat.div_eq_of_lt (by omega : F % N - 1 < N)]
        omega
      have h2 : (F + 1 + N - 1) / N = F / N + 1 := by
        rw [show F + 1 + N - 1 = (F % N) + (F / N + 1) * N from by
          rw [hexp]; omega,
          Nat.add_mul_div_right _ _ (by omega : 0 < N),
          Nat.div_eq_of_lt hrN]
        omega
      rw [h1, h2]
      simp [hmod]

/-- C3: with sampling interval `N ≥ 1` and a stream of `F` decodable frames,
the sampler with no cap emits exactly `⌈F/N⌉ = (F + N - 1) / N` frames,
namely those at source indices `0, N, 2N, …` in order; with a cap `M ≥ 1`
it emits the length-`min ⌈F/N⌉ M` prefix of that same sequence. -/
theorem c3_sampler_positional (F N M : ℕ) (hN : 1 ≤ N) (hM : 1 ≤ M) :
    extractFramesFromVideo F N none =
      (List.range ((F + N - 1) / N)).map (· * N) ∧
    (extractFramesFromVideo F N none).length = (F + N - 1) / N ∧
    extractFramesFromVideo F N (some M) =
      ((List.range ((F + N - 1) / N)).map (· * N)).take M ∧
    (extractFramesFromVideo F N (some M)).length = min ((F + N - 1) / N) M := by
  have hnone : extractFramesFromVideo F N none =
      (List.range ((F + N - 1) / N)).map (· * N) := by
    rw [extractFramesFromVideo, extractGo_none_eq_filter]
    have : (List.range F).map (0 + ·) = List.range F := by
      simp
    rw [this, range_filter_mod N hN]
  have hsome : extractFramesFromVideo F N (some M) =
      ((List.range ((F + N - 1) / N)).map (· * N)).take M := by
    rw [extractFramesFromVideo, extractGo_some_eq_take N M hM,
      ← extractFramesFromVideo, hnone]
    simp
  refine ⟨hnone, ?_, hsome, ?_⟩
  · rw [hnone]
    simp
  · rw [hsome]
    simp [Nat.min_comm]

/-- Witness for C3: a 300-frame stream sampled at interval 30 yields the ten
frames 0, 30, …, 270; a cap of 5 keeps the first five. -/
theorem c3_sampler_positional_witness :
    extractFramesFromVideo 300 30 none =
      (List.range ((300 + 30 - 1) / 30)).map (· * 30) ∧
    (extractFramesFromVideo 300 30 none).length = (300 + 30 - 1) / 30 ∧
    extractFramesFromVideo 300 30 (some 5) =
      ((List.range ((300 + 30 - 1) / 30)).map (· * 30)).take 5 ∧
    (extractFramesFromVideo 300 30 (some 5)).length = min ((300 + 30 - 1) / 30) 5 :=
  c3_sampler_positional 300 30 5 (by norm_num) (by norm_num)

/-! ### Augmentation theorems -/

/-- C5: horizontal flip maps each box `(class, x, y, w, h)` to
`(class, 1 − x, y, w, h)` — only the horizontal center changes — and in
exact arithmetic flipping twice is the identity on the box list. -/
theorem c5_flip_roundtrip (bs : List BBox) :
    horizontalFlipBoxes bs =
      bs.map (fun b => ⟨b.cls, 1 - b.x, b.y, b.w, b.h⟩) ∧
    horizontalFlipBoxes (horizontalFlipBoxes bs) = bs := by
  refine ⟨rfl, ?_⟩
  unfold horizontalFlipBoxes
  rw [List.map_map]
  have hcomp : ((fun b => (⟨b.cls, 1 - b.x, b.y, b.w, b.h⟩ : BBox)) ∘
      (fun b => (⟨b.cls, 1 - b.x, b.y, b.w, b.h⟩ : BBox))) = id := by
    funext b
    cases b
    simp [Function.comp]
  rw [hcomp, List.map_id]

/-- C4: for zoom factor `z > 1` every box is remapped by the crop-and-scale
formulas `(center·dim − offset)·z` and `size·z`, and a box is retained iff
its recomputed *normalized* center lies in `[0,1] × [0,1]` (the source test
`0 <= new_x <= w and 0 <= new_y <= h` in pixel coordinates is equivalent);
for `z ≤ 1` the transform is the identity on the image operation and the
box list. -/
theorem c4_zoom_center_gate (h w : ℕ) (z : ℚ) (bs : List BBox)
    (hh : 0 < h) (hw : 0 < w) :
    zoomImage h w z bs =
      if 1 < z then
        (ImgOp.cropResize ((h - (⌊(h : ℚ) / z⌋).toNat) / 2)
          ((w - (⌊(w : ℚ) / z⌋).toNat) / 2)
          (⌊(h : ℚ) / z⌋).toNat (⌊(w : ℚ) / z⌋).toNat,
         bs.filterMap (fun b =>
           let cx : ℚ := (b.x * w - (((w - (⌊(w : ℚ) / z⌋).toNat) / 2 : ℕ) : ℚ)) * z / w
           let cy : ℚ := (b.y * h - (((h - (⌊(h : ℚ) / z⌋).toNat) / 2 : ℕ) : ℚ)) * z / h
           if 0 ≤ cx ∧ cx ≤ 1 ∧ 0 ≤ cy ∧ cy ≤ 1 then
             some ⟨b.cls, cx, cy, (b.w * w) * z / w, (b.h * h) * z / h⟩
           else none))
      else (ImgOp.idOp, bs) := by
  by_cases hz : 1 < z
  · rw [zoomImage, if_pos hz, if_pos hz]
    have hwq : (0 : ℚ) < (w : ℚ) := by exact_mod_cast hw
    have hhq : (0 : ℚ) < (h : ℚ) := by exact_mod_cast hh
    dsimp only
    congr 1
    congr 1
    funext b
    dsimp only
    have hx0 : (0 ≤ (b.x * w - (((w - (⌊(w : ℚ) / z⌋).toNat) / 2 : ℕ) : ℚ)) * z / w) ↔
        (0 ≤ (b.x * w - (((w - (⌊(w : ℚ) / z⌋).toNat) / 2 : ℕ) : ℚ)) * z) := by
      rw [le_div_iff₀ hwq, zero_mul]
    have hx1 : ((b.x * w - (((w - (⌊(w : ℚ) / z⌋).toNat) / 2 : ℕ) : ℚ)) * z / w ≤ 1) ↔
        ((b.x * w - (((w - (⌊(w : ℚ) / z⌋).toNat) / 2 : ℕ) : ℚ)) * z ≤ w) := by
      rw [div_le_one hwq]
    have hy0 : (0 ≤ (b.y * h - (((h - (⌊(h : ℚ) / z⌋).toNat) / 2 : ℕ) : ℚ)) * z / h) ↔
        (0 ≤ (b.y * h - (((h - (⌊(h : ℚ) / z⌋).toNat) / 2 : ℕ) : ℚ)) * z) := by
      rw [le_div_iff₀ hhq, zero_mul]
    have hy1 : ((b.y * h - (((h - (⌊(h : ℚ) / z⌋).toNat) / 2 : ℕ) : ℚ)) * z / h ≤ 1) ↔
        ((b.y * h - (((h - (⌊(h : ℚ) / z⌋).toNat) / 2 : ℕ) : ℚ)) * z ≤ h) := by
      rw [div_le_one hhq]
    exact if_congr ((hx0.and (hx1.and (hy0.and hy1))).symm) rfl rfl
  · rw [zoomImage, if_neg hz, if_neg hz]

/-- Witness for C4 at zoom factor 1/2 (≤ 1): a 100×100 image with one box is
returned unchanged. -/
theorem c4_zoom_center_gate_witness :
    zoomImage 100 100 (1/2) [⟨0, 1/2, 1/2, 1/10, 1/10⟩] =
      (ImgOp.idOp, [⟨0, 1/2, 1/2, 1/10, 1/10⟩]) := by
  have hmain := c4_zoom_center_gate 100 100 (1/2) [⟨0, 1/2, 1/2, 1/10, 1/10⟩]
    (by norm_num) (by norm_num)
  rw [hmain, if_neg (by norm_num)]

/-- C9 (implicit): the zoom retention test checks only the recomputed box
center; width and height are multiplied by the zoom factor with no clamping,
so a retained box can leave the normalized range: zooming a 100×100 image by
1.5 keeps the box centered at (0.5, 0.5) of size 0.9×0.9 (its new center is
0.495) but emits it with width and height 1.35 > 1. -/
theorem c9_zoom_box_exceeds_unit :
    (zoomImage 100 100 (3/2) [⟨0, 1/2, 1/2, 9/10, 9/10⟩]).2 =
      [⟨0, 99/200, 99/200, 27/20, 27/20⟩] ∧
    (1 : ℚ) < 27/20 := by
  constructor
  · have hfloor : (⌊((100 : ℕ) : ℚ) / (3/2)⌋).toNat = 66 := by
      have h1 : (⌊((100 : ℕ) : ℚ) / (3/2)⌋) = 66 := by
        rw [show ((100 : ℕ) : ℚ) / (3/2) = 200/3 by norm_num]
        rw [Int.floor_eq_iff]
        norm_num
      rw [h1]
      rfl
    rw [zoomImage, if_pos (by norm_num)]
    dsimp only
    rw [hfloor]
    norm_num [List.filterMap]
  · norm_num

/-! ### Quality filter lemmas and theorems -/

lemma processFrame_eq_of_enabled {α : Type} (cfg : FilterConfig) (m : FrameMetrics α)
    (hen : cfg.enabled = true) (st : FilterState α) (f : α) :
    processFrame cfg m st f =
      (if isQualityFrame cfg m st.previousMetricFrame f = true then
        ({ previousFrame := some f,
           previousMetricFrame := some (m.resizeForMetrics f),
           lastMetricFrame := some (m.resizeForMetrics f) }, true)
      else (st, false)) := by
  unfold processFrame
  by_cases hok : isQualityFrame cfg m st.previousMetricFrame f = true
  · simp [hok, hen]
  · simp [hok]

lemma filterFramesGo_prevMetric {α : Type} (cfg : FilterConfig) (m : FrameMetrics α)
    (hen : cfg.enabled = true) :
    ∀ (frames : List α) (st : FilterState α),
      (filterFramesGo cfg m frames st).2.previousMetricFrame =
        (match (filterFramesGo cfg m frames st).1.getLast? with
         | some a => some (m.resizeForMetrics a)
         | none => st.previousMetricFrame) := by
  intro frames
  induction frames with
  | nil => intro st; simp [filterFramesGo]
  | cons f rest ih =>
    intro st
    by_cases hok : isQualityFrame cfg m st.previousMetricFrame f = true
    · have hpr : processFrame cfg m st f =
          ({ previousFrame := some f,
             previousMetricFrame := some (m.resizeForMetrics f),
             lastMetricFrame := some (m.resizeForMetrics f) }, true) := by
        rw [processFrame_eq_of_enabled cfg m hen st f, if_pos hok]
      rw [filterFramesGo, hpr]
      dsimp only
      rw [if_pos rfl, ih]
      cases hlast : (filterFramesGo cfg m rest
          ({ previousFrame := some f,
             previousMetricFrame := some (m.resizeForMetrics f),
             lastMetricFrame := some (m.resizeForMetrics f) } : FilterState α)).1 with
      | nil => simp
      | cons a tl =>
        obtain ⟨x, hx⟩ : ∃ x, (a :: tl).getLast? = some x :=
          Option.isSome_iff_exists.mp (List.getLast?_isSome.mpr (by simp))
        rw [List.getLast?_cons_cons, hx]
    · have hpr : processFrame cfg m st f = (st, false) := by
        rw [processFrame_eq_of_enabled cfg m hen st f, if_neg hok]
      rw [filterFramesGo, hpr]
      dsimp only
      rw [if_neg (by simp), ih]

/-- C6: when the stored previous metric frame is absent (the first candidate
of a video), the motion and similarity checks are skipped entirely: the
candidate is accepted iff the filter is disabled or its brightness lies in
`[min_brightness, max_brightness]` and its sharpness is at least
`min_sharpness` — the motion and similarity metrics do not occur in the
condition at all. -/
theorem c6_first_frame_admission {α : Type} (cfg : FilterConfig)
    (m : FrameMetrics α) (f : α) :
    isQualityFrame cfg m none f = true ↔
      (cfg.enabled = false ∨
        (cfg.minBrightness ≤ m.brightness (m.resizeForMetrics f) ∧
         m.brightness (m.resizeForMetrics f) ≤ cfg.maxBrightness ∧
         cfg.minSharpness ≤ m.sharpness (m.resizeForMetrics f))) := by
  by_cases he : cfg.enabled = false
  · simp [isQualityFrame, he]
  · rw [isQualityFrame, if_neg he]
    dsimp only
    split_ifs with h1 h2
    · simp only [Bool.false_eq_true, false_iff]
      rintro (hen | ⟨hb1, hb2, _⟩)
      · exact he hen
      · rcases h1 with h | h
        · exact absurd hb1 (not_le.mpr h)
        · exact absurd hb2 (not_le.mpr h)
    · simp only [Bool.false_eq_true, false_iff]
      rintro (hen | ⟨_, _, hs⟩)
      · exact he hen
      · exact absurd hs (not_le.mpr h2)
    · simp only [true_iff]
      push_neg at h1
      exact Or.inr ⟨h1.1, h1.2, not_lt.mp h2⟩

/-- C7: with the filter enabled, rejecting a candidate leaves the filter
state unchanged and accepting a candidate sets both `previous_frame` and
`previous_metric_frame` to (the metric copy of) that candidate; consequently
the previous-frame reference against which any later candidate's motion and
similarity are computed is always the most recently accepted frame (the
last element of the accepted output so far), not the most recent
candidate. -/
theorem c7_state_tracks_last_accepted {α : Type} (cfg : FilterConfig)
    (m : FrameMetrics α) (hen : cfg.enabled = true) (st : FilterState α)
    (f : α) (frames : List α) (st₀ : FilterState α) :
    processFrame cfg m st f =
      (if isQualityFrame cfg m st.previousMetricFrame f = true then
        ({ previousFrame := some f,
           previousMetricFrame := some (m.resizeForMetrics f),
           lastMetricFrame := some (m.resizeForMetrics f) }, true)
      else (st, false)) ∧
    (filterFramesGo cfg m frames st₀).2.previousMetricFrame =
      (match (filterFramesGo cfg m frames st₀).1.getLast? with
       | some a => some (m.resizeForMetrics a)
       | none => st₀.previousMetricFrame) :=
  ⟨processFrame_eq_of_enabled cfg m hen st f,
    filterFramesGo_prevMetric cfg m hen frames st₀⟩

/-- Witness for C7: a concrete enabled configuration over `ℕ`-frames with
constant metrics, one candidate to process and a one-frame run. -/
theorem c7_state_tracks_last_accepted_witness :
    processFrame ⟨true, 30, 225, 100, true, 95/100, true, 500⟩
      ⟨fun _ => 100, fun _ => 1000, fun _ _ => 1000, fun _ _ => 0, id⟩
      ⟨none, none, none⟩ 0 =
      (if isQualityFrame ⟨true, 30, 225, 100, true, 95/100, true, 500⟩
          ⟨fun _ => 100, fun _ => 1000, fun _ _ => 1000, fun _ _ => 0, id⟩
          (none : Option ℕ) 0 = true then
        ({ previousFrame := some 0,
           previousMetricFrame := some (id 0),
           lastMetricFrame := some (id 0) }, true)
      else (⟨none, none, none⟩, false)) ∧
    (filterFramesGo ⟨true, 30, 225, 100, true, 95/100, true, 500⟩
        ⟨fun _ => 100, fun _ => 1000, fun _ _ => 1000, fun _ _ => 0, id⟩
        [0, 1] ⟨none, none, none⟩).2.previousMetricFrame =
      (match (filterFramesGo ⟨true, 30, 225, 100, true, 95/100, true, 500⟩
          ⟨fun _ => 100, fun _ => 1000, fun _ _ => 1000, fun _ _ => 0, id⟩
          [0, 1] ⟨none, none, none⟩).1.getLast? with
       | some a => some (id a)
       | none => (none : Option ℕ)) :=
  c7_state_tracks_last_accepted ⟨true, 30, 225, 100, true, 95/100, true, 500⟩
    ⟨fun _ => 100, fun _ => 1000, fun _ _ => 1000, fun _ _ => 0, id⟩ rfl
    ⟨none, none, none⟩ 0 [0, 1] ⟨none, none, none⟩

/-! ### Label copying theorem -/

/-- C10: `create_empty_labels` defaults to true; with it set, an image whose
source annotation file is missing receives an empty destination label file,
and after copying a video folder every copied image has a destination label
file (possibly empty). -/
theorem c10_every_image_gets_label :
    createEmptyLabelsConfig none = true ∧
    copyImageAndLabel true none = ⟨true, some ""⟩ ∧
    (∀ srcLabel : Option String,
      (copyImageAndLabel true srcLabel).imageCopied = true ∧
      (copyImageAndLabel true srcLabel).destLabel.isSome = true) ∧
    (∀ imgs : List (Option String),
      (copyVideoFolder true imgs).all
        (fun r => r.imageCopied && r.destLabel.isSome) = true) := by
  refine ⟨rfl, rfl, ?_, ?_⟩
  · intro srcLabel
    cases srcLabel <;> exact ⟨rfl, rfl⟩
  · intro imgs
    rw [List.all_eq_true]
    intro r hr
    rw [copyVideoFolder] at hr
    obtain ⟨src, _, rfl⟩ := List.mem_map.mp hr
    cases src <;> rfl

end Pipeline
